import Mathlib

/-!
# Verification of the audiovis audio-to-spectrum pipeline

Shallow embedding of the core of the `audiovis` repository:

* `RingBuffer<T>` (src/include/audiovis/ring_buffer.hpp) — the SPSC sample
  ring buffer.  `std::size_t` is modelled as `Nat` reduced modulo
  `usizeMod = 2 ^ 64`; all counter arithmetic in the embedding performs the
  wrap explicitly, exactly where the C++ unsigned arithmetic wraps.
  The element array is modelled as a total function `Nat → α` indexed by the
  masked position, and each operation is translated statement by statement
  from the header.

* `FFTProcessor` (src/src/fft_processor.cpp) — the power-of-two argument
  check of the constructor, the input-buffer fill of `compute`, and the
  band-mapping utility `compute_log_bands`.  Sample values are modelled as
  `ℚ`; the external FFTW transform and the C library float functions
  (`log10f`/`powf`/`sqrtf`/`cosf`) are opaque collaborators of the code and
  enter the embedding as explicit function parameters, never as facts.

* `SpectrumAnalyzer::update` (src/src/spectrum_analyzer.cpp) — starvation
  branch, discard/peek/RMS/FFT/band-smoothing/peak-decay sequence, modelled
  as a pure state transformer on the analyzer state and the ring buffer.
  The wall-clock `timestamp` field is outside the embedding.
-/

namespace Audiovis

/-- Modulus of `std::size_t` (64-bit), the type of the ring-buffer counters. -/
def usizeMod : Nat := 2 ^ 64

/-- Wrapping subtraction `a - b` on `size_t` values (`a`, `b` both `< usizeMod`). -/
def wsub (a b : Nat) : Nat := (a + usizeMod - b) % usizeMod

/-!
## Ring buffer state and operations (ring_buffer.hpp)
-/

/-- State of `RingBuffer<T>`: `capacity_`, `mask_`, the element array
`buffer_` (as a total function of the masked index), and the two `size_t`
counters `write_pos_`, `read_pos_`. -/
structure RB (α : Type) where
  cap : Nat
  mask : Nat
  buf : Nat → α
  wpos : Nat
  rpos : Nat

/-- `RingBuffer::next_power_of_two` (ring_buffer.hpp:176-186): the
bit-smearing round-up, with the final `n + 1` wrapping as `size_t` does. -/
def next_power_of_two (n : Nat) : Nat :=
  if n = 0 then 1
  else
    let m := n - 1
    let m := m ||| (m >>> 1)
    let m := m ||| (m >>> 2)
    let m := m ||| (m >>> 4)
    let m := m ||| (m >>> 8)
    let m := m ||| (m >>> 16)
    let m := m ||| (m >>> 32)
    (m + 1) % usizeMod

/-- `RingBuffer::RingBuffer(min_capacity)` (ring_buffer.hpp:26-31):
`capacity_ = next_power_of_two(min_capacity)`, `mask_ = capacity_ - 1`
(`size_t` subtraction), all elements value-initialized, counters zero. -/
def mkRB (α : Type) [Inhabited α] (min_capacity : Nat) : RB α :=
  let c := next_power_of_two min_capacity
  { cap := c, mask := wsub c 1, buf := fun _ => default, wpos := 0, rpos := 0 }

/-- `RingBuffer::size()` (ring_buffer.hpp:44-48): `w - r` with unsigned wrap. -/
def rbSize (s : RB α) : Nat := wsub s.wpos s.rpos

/-- One store `buffer_[p & mask_] = v` where `p` is a `size_t` expression. -/
def bufWrite (s : RB α) (p : Nat) (v : α) : Nat → α :=
  fun j => if j = (p % usizeMod) &&& s.mask then v else s.buf j

/-- Scalar `RingBuffer::try_push(const T&)` (ring_buffer.hpp:67-78). -/
def try_push1 (s : RB α) (v : α) : RB α × Bool :=
  let w := s.wpos
  let r := s.rpos
  if s.cap ≤ wsub w r then (s, false)
  else ({ s with buf := bufWrite s w v, wpos := (w + 1) % usizeMod }, true)

/-- The write loop of bulk `try_push` (ring_buffer.hpp:88-90):
`buffer_[(w + i) & mask_] = data[i]` for successive `i`. -/
def writeLoop (s : RB α) (w : Nat) : List α → (Nat → α)
  | [] => s.buf
  | v :: rest => writeLoop ({ s with buf := bufWrite s w v }) (w + 1) rest

/-- Bulk `RingBuffer::try_push(span)` (ring_buffer.hpp:82-94). -/
def try_push_bulk (s : RB α) (data : List α) : RB α × Nat :=
  let w := s.wpos
  let r := s.rpos
  let avail := s.cap - wsub w r
  let to_write := min avail data.length
  ({ s with
      buf := writeLoop s w (data.take to_write),
      wpos := (w + to_write) % usizeMod }, to_write)

/-- `RingBuffer::push_overwrite` (ring_buffer.hpp:98-108). -/
def push_overwrite (s : RB α) (v : α) : RB α :=
  let w := s.wpos
  let s1 := { s with buf := bufWrite s w v, wpos := (w + 1) % usizeMod }
  let r := s.rpos
  if s.cap < wsub s1.wpos r then { s1 with rpos := wsub s1.wpos s.cap }
  else s1

/-- Scalar `RingBuffer::try_pop(T&)` (ring_buffer.hpp:115-126).  Note the
emptiness test is the raw comparison `r >= w`, not a wrapped difference. -/
def try_pop1 (s : RB α) : RB α × Option α :=
  let r := s.rpos
  let w := s.wpos
  if w ≤ r then (s, none)
  else ({ s with rpos := (r + 1) % usizeMod }, some (s.buf (r &&& s.mask)))

/-- The copy loop shared verbatim by bulk `try_pop` (ring_buffer.hpp:135-137)
and `peek` (ring_buffer.hpp:151-153): `out[i] = buffer_[(r + i) & mask_]`
for `i < k`, the rest of the out span untouched. -/
def copyOut (s : RB α) (r : Nat) (out : Nat → α) (k : Nat) : Nat → α :=
  fun i => if i < k then s.buf (((r + i) % usizeMod) &&& s.mask) else out i

/-- Bulk `RingBuffer::try_pop(span)` (ring_buffer.hpp:129-141); `out`/`outLen`
model the destination span. -/
def try_pop_bulk (s : RB α) (out : Nat → α) (outLen : Nat) :
    RB α × (Nat → α) × Nat :=
  let r := s.rpos
  let w := s.wpos
  let available := wsub w r
  let to_read := min available outLen
  ({ s with rpos := (r + to_read) % usizeMod }, copyOut s r out to_read, to_read)

/-- `RingBuffer::peek` (ring_buffer.hpp:145-156): non-consuming copy. -/
def peekOp (s : RB α) (out : Nat → α) (outLen : Nat) : (Nat → α) × Nat :=
  let r := s.rpos
  let w := s.wpos
  let available := wsub w r
  let to_copy := min available outLen
  (copyOut s r out to_copy, to_copy)

/-- `RingBuffer::discard` (ring_buffer.hpp:159-167). -/
def discardOp (s : RB α) (count : Nat) : RB α × Nat :=
  let r := s.rpos
  let w := s.wpos
  let available := wsub w r
  let to_discard := min available count
  ({ s with rpos := (r + to_discard) % usizeMod }, to_discard)

/-!
## Arithmetic and bit-level helper lemmas
-/

theorem usizeMod_eq : usizeMod = 2 ^ 64 := rfl

/-- The wrapped difference of reduced counters is the true difference, as long
as the true difference fits in 64 bits. -/
theorem wsub_mod {W R : Nat} (h1 : R ≤ W) (h2 : W - R < usizeMod) :
    wsub (W % usizeMod) (R % usizeMod) = W - R := by
  unfold wsub usizeMod at *
  omega

theorem wsub_small {a b : Nat} (hb : b ≤ a) (ha : a < usizeMod) :
    wsub a b = a - b := by
  unfold wsub usizeMod at *
  omega

theorem wsub_wrap (x r : Nat) (hr : r ≤ x) (hxr : x - r < usizeMod)
    (hrM : r < usizeMod) : wsub (x % usizeMod) r = x - r := by
  unfold wsub usizeMod at *
  omega

theorem mask_mod {e : Nat} (he : e ≤ 64) (x : Nat) :
    (x % usizeMod) &&& (2 ^ e - 1) = x % 2 ^ e := by
  rw [Nat.and_pow_two_sub_one_eq_mod, usizeMod_eq]
  exact Nat.mod_mod_of_dvd x (pow_dvd_pow 2 he)

theorem mod_ne_mod_of_sub_lt {a b c : Nat} (hab : a < b) (h : b - a < c) :
    a % c ≠ b % c := by
  intro hmod
  have hdvd : c ∣ b - a := (Nat.modEq_iff_dvd' (Nat.le_of_lt hab)).mp hmod
  have := Nat.eq_zero_of_dvd_of_lt hdvd h
  omega

/-- Bit `k` is set whenever `2^k ≤ x < 2^(k+1)`. -/
theorem testBit_of_bounds {x k : Nat} (h1 : 2 ^ k ≤ x) (h2 : x < 2 ^ (k + 1)) :
    x.testBit k = true := by
  rw [Nat.testBit_to_div_mod]
  have hdiv : x / 2 ^ k = 1 := by
    apply Nat.div_eq_of_lt_le (by omega)
    have h2' : x < 2 ^ k * 2 := by rw [pow_succ] at h2; exact h2
    omega
  simp [hdiv]

/-- The most significant bit of a nonzero number is set. -/
theorem testBit_msb {x : Nat} (hx : x ≠ 0) : x.testBit (x.size - 1) = true := by
  have hpos : 0 < x.size := Nat.size_pos.mpr (Nat.pos_of_ne_zero hx)
  have h1 : 2 ^ (x.size - 1) ≤ x := Nat.lt_size.mp (by omega)
  have h2 : x < 2 ^ (x.size - 1 + 1) := by
    have heq : x.size - 1 + 1 = x.size := by omega
    rw [heq]
    exact Nat.lt_size_self x
  exact testBit_of_bounds h1 h2

theorem testBit_or_shift (m c i : Nat) :
    (m ||| (m >>> c)).testBit i = (m.testBit i || m.testBit (i + c)) := by
  rw [Nat.testBit_lor, Nat.testBit_shiftRight, Nat.add_comm c i]

/-- One `m |= m >> c` step doubles the window of source bits a result bit
can see. -/
theorem window_step {m a c : Nat}
    (ha : ∀ i, a.testBit i = true ↔ ∃ d, d < c ∧ m.testBit (i + d) = true) :
    ∀ i, (a ||| (a >>> c)).testBit i = true ↔
      ∃ d, d < 2 * c ∧ m.testBit (i + d) = true := by
  intro i
  rw [testBit_or_shift, Bool.or_eq_true, ha i, ha (i + c)]
  constructor
  · rintro (⟨d, hd, hbit⟩ | ⟨d, hd, hbit⟩)
    · exact ⟨d, by omega, hbit⟩
    · exact ⟨c + d, by omega, by rwa [← Nat.add_assoc]⟩
  · rintro ⟨d, hd, hbit⟩
    by_cases hdc : d < c
    · exact Or.inl ⟨d, hdc, hbit⟩
    · refine Or.inr ⟨d - c, by omega, ?_⟩
      have heq : i + c + (d - c) = i + d := by omega
      rwa [heq]

/-- The bit-smearing cascade of `next_power_of_two` isolated. -/
def smear64 (m : Nat) : Nat :=
  let m := m ||| (m >>> 1)
  let m := m ||| (m >>> 2)
  let m := m ||| (m >>> 4)
  let m := m ||| (m >>> 8)
  let m := m ||| (m >>> 16)
  let m := m ||| (m >>> 32)
  m

theorem next_power_of_two_eq_smear {n : Nat} (hn : n ≠ 0) :
    next_power_of_two n = (smear64 (n - 1) + 1) % usizeMod := by
  simp [next_power_of_two, smear64, hn]

theorem smear64_testBit (m i : Nat) :
    (smear64 m).testBit i = true ↔ ∃ d, d < 64 ∧ m.testBit (i + d) = true := by
  have h0 : ∀ j, m.testBit j = true ↔ ∃ d, d < 1 ∧ m.testBit (j + d) = true := by
    intro j
    constructor
    · intro h; exact ⟨0, by omega, by simpa using h⟩
    · rintro ⟨d, hd, h⟩
      have hd0 : d = 0 := by omega
      simpa [hd0] using h
  have h1 := window_step h0
  have h2 := window_step h1
  have h3 := window_step h2
  have h4 := window_step h3
  have h5 := window_step h4
  have h6 := window_step h5
  simpa [smear64] using h6 i

/-- For `m < 2^64` the smear cascade produces `2^(size m) - 1`: all bits
below the most significant bit of `m` set. -/
theorem smear64_spec {m : Nat} (hm : m < 2 ^ 64) : smear64 m = 2 ^ m.size - 1 := by
  apply Nat.eq_of_testBit_eq
  intro i
  rw [Nat.testBit_two_pow_sub_one]
  by_cases hcase : i < m.size
  · have hm0 : m ≠ 0 := by
      intro h
      rw [h] at hcase
      simp [Nat.size_zero] at hcase
    have hsz : m.size ≤ 64 := Nat.size_le.mpr hm
    have : (smear64 m).testBit i = true := by
      rw [smear64_testBit]
      refine ⟨m.size - 1 - i, by omega, ?_⟩
      have heq : i + (m.size - 1 - i) = m.size - 1 := by omega
      rw [heq]
      exact testBit_msb hm0
    simp [this, hcase]
  · have : ¬ (smear64 m).testBit i = true := by
      rw [smear64_testBit]
      rintro ⟨d, hd, hbit⟩
      have hge : 2 ^ (i + d) ≤ m := Nat.testBit_implies_ge hbit
      have : i + d < m.size := Nat.lt_size.mpr hge
      omega
    simp only [Bool.not_eq_true] at this
    simp [this, hcase]

theorem next_power_of_two_zero : next_power_of_two 0 = 1 := rfl

theorem next_power_of_two_eq_pow {n : Nat} (h1 : 1 ≤ n) (h2 : n ≤ 2 ^ 63) :
    next_power_of_two n = 2 ^ (n - 1).size := by
  rw [next_power_of_two_eq_smear (by omega)]
  rw [smear64_spec (show n - 1 < 2 ^ 64 by omega)]
  have hsize : (n - 1).size ≤ 63 := Nat.size_le.mpr (by omega)
  have hpow_pos : 0 < 2 ^ (n - 1).size := Nat.pos_pow_of_pos _ (by norm_num)
  have hsub : 2 ^ (n - 1).size - 1 + 1 = 2 ^ (n - 1).size := by omega
  rw [hsub]
  apply Nat.mod_eq_of_lt
  rw [usizeMod_eq]
  calc 2 ^ (n - 1).size ≤ 2 ^ 63 := Nat.pow_le_pow_right (by norm_num) hsize
    _ < 2 ^ 64 := by norm_num

theorem le_pow_size {n : Nat} (h1 : 1 ≤ n) : n ≤ 2 ^ (n - 1).size := by
  have := Nat.lt_size_self (n - 1)
  omega

theorem size_le_of_le_pow {n j : Nat} (h1 : 1 ≤ n) (hj : n ≤ 2 ^ j) :
    (n - 1).size ≤ j := by
  apply Nat.size_le.mpr
  omega

/-- The constructed capacity, as a power of two, for any request `≤ 2^63`. -/
theorem next_power_of_two_form {n : Nat} (h : n ≤ 2 ^ 63) :
    ∃ e, e ≤ 63 ∧ next_power_of_two n = 2 ^ e := by
  by_cases hn : n = 0
  · exact ⟨0, by omega, by simp [hn, next_power_of_two_zero]⟩
  · refine ⟨(n - 1).size, ?_, next_power_of_two_eq_pow (by omega) h⟩
    apply Nat.size_le.mpr
    omega

theorem wsub_one {c : Nat} (h1 : 1 ≤ c) (h2 : c < usizeMod) :
    wsub c 1 = c - 1 := by
  unfold wsub usizeMod at *
  omega

/-!
## FFTProcessor constructor guard (fft_processor.cpp:32-40)
-/

/-- The power-of-two guard of `FFTProcessor::FFTProcessor`
(fft_processor.cpp:34-36): `(config_.fft_size & (config_.fft_size - 1)) != 0`
throws `std::invalid_argument` ("FFT size must be a power of two").
`config_.fft_size - 1` is `size_t` subtraction, so it wraps at
`fft_size = 0`. -/
def fft_ctor_throws_invalid_argument (fft_size : Nat) : Bool :=
  (fft_size &&& wsub fft_size 1) != 0

theorem land_pred_eq_zero_iff {n : Nat} (h1 : 1 ≤ n) :
    n &&& (n - 1) = 0 ↔ ∃ k, n = 2 ^ k := by
  constructor
  · intro h
    have hpos : 0 < n.size := Nat.size_pos.mpr (by omega)
    refine ⟨n.size - 1, ?_⟩
    have hle : 2 ^ (n.size - 1) ≤ n := Nat.lt_size.mp (by omega)
    have hlt : n < 2 ^ n.size := Nat.lt_size_self n
    by_contra hne
    have hgt : 2 ^ (n.size - 1) + 1 ≤ n := by omega
    have hb1 : n.testBit (n.size - 1) = true := by
      apply testBit_of_bounds hle
      have heq : n.size - 1 + 1 = n.size := by omega
      rw [heq]; exact hlt
    have hb2 : (n - 1).testBit (n.size - 1) = true := by
      apply testBit_of_bounds (by omega)
      have heq : n.size - 1 + 1 = n.size := by omega
      rw [heq]; omega
    have : (n &&& (n - 1)).testBit (n.size - 1) = true := by
      rw [Nat.testBit_land, hb1, hb2]; rfl
    have := Nat.testBit_implies_ge this
    have : 0 < 2 ^ (n.size - 1) := Nat.pos_pow_of_pos _ (by norm_num)
    omega
  · rintro ⟨k, rfl⟩
    apply Nat.eq_of_testBit_eq
    intro i
    rw [Nat.testBit_land, Nat.zero_testBit, Nat.testBit_two_pow,
      Nat.testBit_two_pow_sub_one]
    by_cases hik : k = i <;> simp [hik]

/-- C1 counterexample: `fft_size = 0` is not a power of two, yet the guard
`(fft_size & (fft_size - 1)) != 0` evaluates to `0 & (2^64 - 1) = 0` and does
NOT throw `InvalidArgument` — the claim's "including fft_size = 0" is false
on the code. -/
theorem fft_ctor_rejects_nonpow2_cex :
    fft_ctor_throws_invalid_argument 0 = false ∧ ¬ ∃ k : Nat, (0 : Nat) = 2 ^ k := by
  constructor
  · decide
  · rintro ⟨k, hk⟩
    exact absurd hk.symm (pow_ne_zero k (by norm_num))

/-- C1 (amended): for every `fft_size ≥ 1` in the `size_t` range, the
constructor throws `InvalidArgument` exactly when `fft_size` is not a power
of two; the guard accepts `fft_size = 0`. -/
theorem fft_ctor_rejects_nonpow2 (n : Nat) (h1 : 1 ≤ n) (h2 : n < usizeMod) :
    fft_ctor_throws_invalid_argument n = true ↔ ¬ ∃ k, n = 2 ^ k := by
  unfold fft_ctor_throws_invalid_argument
  rw [wsub_one h1 h2]
  rw [← land_pred_eq_zero_iff h1]
  simp [bne_iff_ne]

/-- Witness for `fft_ctor_rejects_nonpow2` at `fft_size = 500` (the repo's
own test input for the invalid-size case). -/
theorem fft_ctor_rejects_nonpow2_witness :
    1 ≤ 500 ∧ 500 < usizeMod ∧
      (fft_ctor_throws_invalid_argument 500 = true ↔ ¬ ∃ k, (500 : Nat) = 2 ^ k) :=
  ⟨by norm_num, by norm_num [usizeMod], fft_ctor_rejects_nonpow2 500 (by norm_num)
    (by norm_num [usizeMod])⟩

/-!
## Ring buffer capacity rounding (C3)
-/

/-- C3 counterexample: requesting `2^63 + 1` makes the bit-smearing round-up
overflow: the constructed capacity is `0`, not the smallest power of two
`≥ max(n, 1)` (no `size_t` power of two is `≥ 2^63 + 1`). -/
theorem capacity_rounding_cex :
    (mkRB ℚ (2 ^ 63 + 1)).cap = 0 ∧
      ¬ max (2 ^ 63 + 1) 1 ≤ (mkRB ℚ (2 ^ 63 + 1)).cap := by
  have hcap : (mkRB ℚ (2 ^ 63 + 1)).cap = 0 := by
    show next_power_of_two (2 ^ 63 + 1) = 0
    rw [next_power_of_two_eq_smear (by norm_num)]
    have hs : (2 ^ 63 + 1 - 1 : Nat) = 2 ^ 63 := by norm_num
    rw [hs, smear64_spec (by norm_num), Nat.size_pow]
    norm_num [usizeMod]
  refine ⟨hcap, ?_⟩
  rw [hcap]
  omega

/-- C3 (amended): for every requested capacity `n ≤ 2^63`, the constructed
capacity is the smallest power of two `≥ max(n, 1)`; beyond `2^63` the
round-up overflows (see the counterexample). -/
theorem capacity_rounding (n : Nat) (h : n ≤ 2 ^ 63) :
    (∃ k, (mkRB ℚ n).cap = 2 ^ k) ∧ max n 1 ≤ (mkRB ℚ n).cap ∧
      ∀ p, (∃ k, p = 2 ^ k) → max n 1 ≤ p → (mkRB ℚ n).cap ≤ p := by
  by_cases hn : n = 0
  · subst hn
    have hcap : (mkRB ℚ 0).cap = 1 := rfl
    refine ⟨⟨0, hcap⟩, by rw [hcap]; omega, ?_⟩
    rintro p ⟨k, rfl⟩ _
    rw [hcap]
    exact Nat.pos_pow_of_pos _ (by norm_num)
  · have h1 : 1 ≤ n := by omega
    have hcap : (mkRB ℚ n).cap = 2 ^ (n - 1).size :=
      next_power_of_two_eq_pow h1 h
    have hmax : max n 1 = n := by omega
    refine ⟨⟨(n - 1).size, hcap⟩, ?_, ?_⟩
    · rw [hcap, hmax]
      exact le_pow_size h1
    · rintro p ⟨k, rfl⟩ hp
      rw [hcap]
      rw [hmax] at hp
      exact Nat.pow_le_pow_right (by norm_num) (size_le_of_le_pow h1 hp)

/-- Witness for `capacity_rounding` at the rounded-up request `n = 0`
(capacity 1) — the "request of 0 yields capacity 1" instance. -/
theorem capacity_rounding_witness :
    (0 : Nat) ≤ 2 ^ 63 ∧
      ((∃ k, (mkRB ℚ 0).cap = 2 ^ k) ∧ max 0 1 ≤ (mkRB ℚ 0).cap ∧
        ∀ p, (∃ k, p = 2 ^ k) → max 0 1 ≤ p → (mkRB ℚ 0).cap ≤ p) :=
  ⟨Nat.zero_le _, capacity_rounding 0 (Nat.zero_le _)⟩

/-!
## Peek/discard equivalence (C5)
-/

/-- C5: `peek` into a `k`-element span (a `const` method: the buffer state is
untouched, so the following `discard(k)` acts on the same state) followed by
`discard(k)` copies the same values, returns the same count, and leaves the
same final state (`read_pos`, `write_pos`, contents) as `try_pop` with a
`k`-element span. -/
theorem peek_discard_equiv_try_pop {α : Type} (s : RB α) (out : Nat → α) (k : Nat) :
    (peekOp s out k).1 = (try_pop_bulk s out k).2.1 ∧
      (peekOp s out k).2 = (try_pop_bulk s out k).2.2 ∧
      (discardOp s k).1 = (try_pop_bulk s out k).1 ∧
      (discardOp s k).2 = (try_pop_bulk s out k).2.2 :=
  ⟨rfl, rfl, rfl, rfl⟩

/-!
## List helpers for the FIFO development
-/

theorem getD_append_left {α : Type} {l1 l2 : List α} {i : Nat}
    (h : i < l1.length) (d : α) : (l1 ++ l2).getD i d = l1.getD i d := by
  simp [List.getD_eq_getElem?_getD, List.getElem?_append_left h]

theorem getD_append_right {α : Type} {l1 l2 : List α} {i : Nat}
    (h : l1.length ≤ i) (d : α) :
    (l1 ++ l2).getD i d = l2.getD (i - l1.length) d := by
  simp [List.getD_eq_getElem?_getD, List.getElem?_append_right h]

theorem getD_take {α : Type} {l : List α} {i t : Nat} (h : i < t) (d : α) :
    (l.take t).getD i d = l.getD i d := by
  simp [List.getD_eq_getElem?_getD, List.getElem?_take, h]

theorem take_concat_getD {α : Type} {l : List α} {n : Nat}
    (h : n < l.length) (d : α) : l.take (n + 1) = l.take n ++ [l.getD n d] := by
  rw [List.take_succ, List.getElem?_eq_getElem h]
  simp [List.getD_eq_getElem?_getD, List.getElem?_eq_getElem h]

theorem take_add_map_getD {α : Type} (l : List α) (R : Nat) (d : α) :
    ∀ t : Nat, R + t ≤ l.length →
      l.take (R + t) = l.take R ++ (List.range t).map (fun i => l.getD (R + i) d)
  | 0, _ => by simp
  | t + 1, h => by
    have ih := take_add_map_getD l R d t (by omega)
    have hlt : R + t < l.length := by omega
    calc l.take (R + t + 1)
        = l.take (R + t) ++ [l.getD (R + t) d] := take_concat_getD hlt d
      _ = l.take R ++ (List.range t).map (fun i => l.getD (R + i) d)
            ++ [l.getD (R + t) d] := by rw [ih]
      _ = l.take R ++ (List.range (t + 1)).map (fun i => l.getD (R + i) d) := by
            rw [List.range_succ, List.map_append, List.append_assoc]
            rfl

/-!
## Characterization of the bulk-push write loop
-/

theorem writeLoop_miss {α : Type} (data : List α) :
    ∀ (s : RB α) (w j : Nat),
      (∀ i, i < data.length → ((w + i) % usizeMod) &&& s.mask ≠ j) →
      writeLoop s w data j = s.buf j := by
  induction data with
  | nil => intro s w j _; rfl
  | cons v rest ih =>
    intro s w j h
    show writeLoop ({ s with buf := bufWrite s w v }) (w + 1) rest j = s.buf j
    rw [ih ({ s with buf := bufWrite s w v }) (w + 1) j ?_]
    · show bufWrite s w v j = s.buf j
      unfold bufWrite
      have h0 := h 0 (by simp)
      rw [if_neg]
      intro hj
      exact h0 (by simpa using hj.symm)
    · intro i hi
      have := h (i + 1) (by simpa using Nat.succ_lt_succ hi)
      have heq : w + (i + 1) = w + 1 + i := by omega
      rw [heq] at this
      exact this

theorem writeLoop_hit {α : Type} [Inhabited α] (data : List α) :
    ∀ (s : RB α) (w i : Nat), i < data.length →
      (∀ i', i < i' → i' < data.length →
        ((w + i') % usizeMod) &&& s.mask ≠ ((w + i) % usizeMod) &&& s.mask) →
      writeLoop s w data (((w + i) % usizeMod) &&& s.mask) = data.getD i default := by
  induction data with
  | nil => intro s w i hi; simp at hi
  | cons v rest ih =>
    intro s w i hi hdist
    show writeLoop ({ s with buf := bufWrite s w v }) (w + 1) rest
      (((w + i) % usizeMod) &&& s.mask) = (v :: rest).getD i default
    cases i with
    | zero =>
      rw [writeLoop_miss rest _ (w + 1) _ ?_]
      · show bufWrite s w v (((w + 0) % usizeMod) &&& s.mask) = v
        unfold bufWrite
        rw [if_pos (by norm_num)]
      · intro i' hi'
        have := hdist (i' + 1) (by omega) (by simpa using Nat.succ_lt_succ hi')
        have heq : w + (i' + 1) = w + 1 + i' := by omega
        rw [heq] at this
        exact this
    | succ i0 =>
      have hkey : ((w + (i0 + 1)) % usizeMod) &&& s.mask
          = ((w + 1 + i0) % usizeMod) &&& s.mask := by
        have heq : w + (i0 + 1) = w + 1 + i0 := by omega
        rw [heq]
      rw [hkey]
      rw [ih ({ s with buf := bufWrite s w v }) (w + 1) i0 (by simpa using hi) ?_]
      · rfl
      · intro i' hlo hhi
        have := hdist (i' + 1) (by omega) (by simpa using Nat.succ_lt_succ hhi)
        have he1 : w + (i' + 1) = w + 1 + i' := by omega
        have he2 : w + (i0 + 1) = w + 1 + i0 := by omega
        rw [he1, he2] at this
        exact this

/-!
## Sequential push/pop traces and the FIFO invariant (C4)

A trace interleaves the four producer/consumer operations of the header
(scalar and bulk `try_push`, scalar and bulk `try_pop`), run sequentially
(one producer, one consumer).  `stepOp` returns the values *accepted* by a
push and the values *returned* by a pop.
-/

inductive RBOp (α : Type) where
  | pushV : α → RBOp α
  | pushS : List α → RBOp α
  | popV : RBOp α
  | popS : Nat → RBOp α

/-- The first `k` entries of an out span. -/
def outVals {α : Type} (out : Nat → α) (k : Nat) : List α :=
  (List.range k).map out

def stepOp {α : Type} [Inhabited α] (s : RB α) : RBOp α → RB α × List α × List α
  | .pushV v =>
    let r := try_push1 s v
    (r.1, if r.2 then [v] else [], [])
  | .pushS data =>
    let r := try_push_bulk s data
    (r.1, data.take r.2, [])
  | .popV =>
    let r := try_pop1 s
    (r.1, [], r.2.toList)
  | .popS k =>
    let r := try_pop_bulk s (fun _ => default) k
    (r.1, [], outVals r.2.1 r.2.2)

def runOps {α : Type} [Inhabited α] (s : RB α) :
    List (RBOp α) → RB α × List α × List α
  | [] => (s, [], [])
  | op :: rest =>
    let r1 := stepOp s op
    let r2 := runOps r1.1 rest
    (r2.1, r1.2.1 ++ r2.2.1, r1.2.2 ++ r2.2.2)

/-- The coupling invariant between a buffer state of capacity `2^e` and the
ghost history: `pushed` is the list of all values accepted so far, `popped`
of all values returned so far; `W`/`R` are the unwrapped counters. -/
def rbInv {α : Type} [Inhabited α] (e : Nat) (s : RB α)
    (pushed popped : List α) : Prop :=
  s.cap = 2 ^ e ∧ s.mask = 2 ^ e - 1 ∧
  ∃ W R : Nat,
    s.wpos = W % usizeMod ∧ s.rpos = R % usizeMod ∧
    R ≤ W ∧ W ≤ R + 2 ^ e ∧
    W = pushed.length ∧ R = popped.length ∧
    popped = pushed.take R ∧
    (∀ i, R ≤ i → i < W → s.buf (i % 2 ^ e) = pushed.getD i default)

theorem pow_lt_usize {e : Nat} (he : e ≤ 63) : 2 ^ e < usizeMod := by
  rw [usizeMod_eq]
  calc 2 ^ e ≤ 2 ^ 63 := Nat.pow_le_pow_right (by norm_num) he
    _ < 2 ^ 64 := by norm_num

theorem rbInv_step {α : Type} [Inhabited α] {e : Nat} (he : e ≤ 63)
    {s : RB α} {pushed popped : List α} (h : rbInv e s pushed popped)
    (op : RBOp α) :
    rbInv e (stepOp s op).1 (pushed ++ (stepOp s op).2.1)
      (popped ++ (stepOp s op).2.2) := by
  obtain ⟨hcap, hmask, W, R, hw, hr, hRW, hWcap, hWlen, hRlen, htake, hbuf⟩ := h
  have hM : 2 ^ e < usizeMod := pow_lt_usize he
  have hsub : wsub s.wpos s.rpos = W - R := by
    rw [hw, hr]; exact wsub_mod hRW (by omega)
  have hwkey : ∀ x : Nat, ((x % usizeMod) % usizeMod) &&& s.mask = x % 2 ^ e := by
    intro x
    rw [Nat.mod_mod_of_dvd x (dvd_refl usizeMod), hmask, mask_mod (by omega)]
  cases op with
  | pushV v =>
    simp only [stepOp, try_push1, hsub, hcap]
    by_cases hfull : 2 ^ e ≤ W - R
    · simp only [if_pos hfull]
      simp only [Bool.false_eq_true, if_false, List.append_nil]
      exact ⟨hcap, hmask, W, R, hw, hr, hRW, hWcap, hWlen, hRlen, htake, hbuf⟩
    · simp only [if_neg hfull, if_true, List.append_nil]
      refine ⟨rfl, hmask, W + 1, R, ?_, hr, by omega, by omega, by simp [hWlen],
        hRlen, ?_, ?_⟩
      · show (s.wpos + 1) % usizeMod = (W + 1) % usizeMod
        rw [hw, Nat.mod_add_mod]
      · rw [List.take_append_of_le_length (by omega)]
        exact htake
      · intro i hRi hiW
        show bufWrite s s.wpos v (i % 2 ^ e) = (pushed ++ [v]).getD i default
        unfold bufWrite
        rw [hw, hwkey W]
        by_cases hiW' : i = W
        · subst hiW'
          rw [if_pos rfl, getD_append_right (by omega) default]
          simp [hWlen]
        · have hilt : i < W := by omega
          rw [if_neg (mod_ne_mod_of_sub_lt hilt (by omega))]
          rw [hbuf i hRi hilt, getD_append_left (by omega) default]
  | pushS data =>
    simp only [stepOp, try_push_bulk, hsub, hcap, List.append_nil]
    set t := min (2 ^ e - (W - R)) data.length with ht
    have htlen : t ≤ data.length := by omega
    have htcap : W - R + t ≤ 2 ^ e := by omega
    have htake_len : (data.take t).length = t := by
      simp [List.length_take]; omega
    refine ⟨rfl, hmask, W + t, R, ?_, hr, by omega, by omega, ?_, hRlen, ?_, ?_⟩
    · show (s.wpos + t) % usizeMod = (W + t) % usizeMod
      rw [hw, Nat.mod_add_mod]
    · simp [hWlen, htake_len]
    · rw [List.take_append_of_le_length (by omega)]
      exact htake
    · intro i hRi hiWt
      show writeLoop s s.wpos (data.take t) (i % 2 ^ e)
        = (pushed ++ data.take t).getD i default
      by_cases hiW : i < W
      · rw [writeLoop_miss (data.take t) s s.wpos (i % 2 ^ e) ?_]
        · rw [hbuf i hRi hiW, getD_append_left (by omega) default]
        · intro i' hi'
          rw [htake_len] at hi'
          rw [hw, Nat.mod_add_mod, hmask, mask_mod (by omega)]
          exact (mod_ne_mod_of_sub_lt (show i < W + i' by omega)
            (show W + i' - i < 2 ^ e by omega)).symm
      · have hiW' : W ≤ i := by omega
        have hkey : ((s.wpos + (i - W)) % usizeMod) &&& s.mask = i % 2 ^ e := by
          rw [hw, Nat.mod_add_mod, hmask, mask_mod (by omega)]
          congr 1
          omega
        rw [← hkey]
        rw [writeLoop_hit (data.take t) s s.wpos (i - W) (by omega) ?_]
        · rw [getD_take (by omega) default,
            getD_append_right (by omega) default, hWlen]
          exact (getD_take (by omega) default).symm
        · intro i' hlo hhi
          rw [htake_len] at hhi
          rw [hw, Nat.mod_add_mod, Nat.mod_add_mod, hmask,
            mask_mod (by omega), mask_mod (by omega)]
          have heq : W + (i - W) = i := by omega
          rw [heq]
          exact (mod_ne_mod_of_sub_lt (show i < W + i' by omega)
            (show W + i' - i < 2 ^ e by omega)).symm
  | popV =>
    simp only [stepOp, try_pop1]
    by_cases hempty : s.wpos ≤ s.rpos
    · simp only [if_pos hempty, Option.toList_none, List.append_nil]
      exact ⟨hcap, hmask, W, R, hw, hr, hRW, hWcap, hWlen, hRlen, htake, hbuf⟩
    · have hRltW : R < W := by
        rw [hw, hr] at hempty
        rcases Nat.lt_or_ge R W with hlt | hge
        · exact hlt
        · have hWR : W = R := by omega
          rw [hWR] at hempty
          exact absurd (le_refl _) hempty
      have hval : s.buf (s.rpos &&& s.mask) = pushed.getD R default := by
        rw [hr, hmask, mask_mod (by omega)]
        exact hbuf R (le_refl R) hRltW
      simp only [if_neg hempty, Option.toList_some, List.append_nil]
      refine ⟨hcap, hmask, W, R + 1, hw, ?_, by omega, by omega, hWlen, ?_, ?_, ?_⟩
      · show (s.rpos + 1) % usizeMod = (R + 1) % usizeMod
        rw [hr, Nat.mod_add_mod]
      · simp [hRlen]
      · rw [hval, htake, ← take_concat_getD (by omega) default]
      · intro i hRi hiW
        exact hbuf i (by omega) hiW
  | popS k =>
    simp only [stepOp, try_pop_bulk, hsub, List.append_nil]
    set t := min (W - R) k with ht
    have hq : outVals (copyOut s s.rpos (fun _ => default) t) t
        = (List.range t).map (fun m => pushed.getD (R + m) default) := by
      unfold outVals copyOut
      apply List.map_congr_left
      intro m hm
      rw [List.mem_range] at hm
      rw [if_pos hm, hr, Nat.mod_add_mod, hmask, mask_mod (by omega)]
      exact hbuf (R + m) (by omega) (by omega)
    rw [hq]
    refine ⟨hcap, hmask, W, R + t, hw, ?_, by omega, by omega, hWlen, ?_, ?_, ?_⟩
    · show (s.rpos + t) % usizeMod = (R + t) % usizeMod
      rw [hr, Nat.mod_add_mod]
    · simp [hRlen]
    · rw [htake, ← take_add_map_getD pushed R default t (by omega)]
    · intro i hi hiW
      exact hbuf i (by omega) hiW

theorem rbInv_init {α : Type} [Inhabited α] {mc e : Nat} (he : e ≤ 63)
    (hcap : next_power_of_two mc = 2 ^ e) : rbInv e (mkRB α mc) [] [] := by
  refine ⟨hcap, ?_, 0, 0, by simp [mkRB], by simp [mkRB], le_refl 0, by simp,
    rfl, rfl, rfl, ?_⟩
  · show wsub (next_power_of_two mc) 1 = 2 ^ e - 1
    rw [hcap]
    exact wsub_one (Nat.pos_pow_of_pos _ (by norm_num)) (pow_lt_usize he)
  · intro i h0 hi
    exact absurd hi (by omega)

theorem runOps_inv {α : Type} [Inhabited α] {e : Nat} (he : e ≤ 63) :
    ∀ (ops : List (RBOp α)) (s : RB α) (pushed popped : List α),
      rbInv e s pushed popped →
      rbInv e (runOps s ops).1 (pushed ++ (runOps s ops).2.1)
        (popped ++ (runOps s ops).2.2)
  | [], s, pushed, popped, h => by simpa [runOps] using h
  | op :: rest, s, pushed, popped, h => by
    have h1 := rbInv_step he h op
    have h2 := runOps_inv he rest (stepOp s op).1 _ _ h1
    simp only [runOps]
    simpa [List.append_assoc] using h2

/-- C4: for every sequence of `try_push` / `try_pop` operations (scalar or
bulk) executed sequentially on a freshly constructed ring buffer of any
requested capacity up to `2^63`, the sequence of values successfully
returned by `try_pop` is a prefix, in order, of the sequence of values
successfully accepted by `try_push` (FIFO). -/
theorem ring_buffer_fifo (mc : Nat) (hmc : mc ≤ 2 ^ 63) (ops : List (RBOp ℚ)) :
    (runOps (mkRB ℚ mc) ops).2.2 <+: (runOps (mkRB ℚ mc) ops).2.1 := by
  obtain ⟨e, he, hcap⟩ := next_power_of_two_form hmc
  have h0 : rbInv e (mkRB ℚ mc) [] [] := rbInv_init he hcap
  have h := runOps_inv he ops (mkRB ℚ mc) [] [] h0
  simp only [List.nil_append] at h
  obtain ⟨-, -, W, R, -, -, -, -, -, -, htake, -⟩ := h
  rw [htake]
  exact List.take_prefix R _

/-- Witness for `ring_buffer_fifo`: a concrete interleaved trace on a
capacity-4 buffer. -/
theorem ring_buffer_fifo_witness :
    4 ≤ 2 ^ 63 ∧
      (runOps (mkRB ℚ 4) [RBOp.pushV 1, RBOp.pushV 2, RBOp.popV,
        RBOp.pushS [3, 4, 5, 6, 7], RBOp.popS 3]).2.2 <+:
      (runOps (mkRB ℚ 4) [RBOp.pushV 1, RBOp.pushV 2, RBOp.popV,
        RBOp.pushS [3, 4, 5, 6, 7], RBOp.popS 3]).2.1 :=
  ⟨by norm_num, ring_buffer_fifo 4 (by norm_num) _⟩

/-!
## push_overwrite: overwrite of the oldest element (C6)
-/

/-- Repeated scalar `try_pop`, collecting the returned values, stopping at
the first failure (the consumer's successive `try_pop` calls). -/
def popN {α : Type} (s : RB α) : Nat → RB α × List α
  | 0 => (s, [])
  | n + 1 =>
    let r := try_pop1 s
    match r.2 with
    | some v =>
      let rest := popN r.1 n
      (rest.1, v :: rest.2)
    | none => (r.1, [])

/-- A freshly constructed buffer of capacity `2^e`: counters zero, arbitrary
array contents `f` (the contents are never read before being written).
`mkRB` produces exactly this shape. -/
def freshRB {α : Type} (e : Nat) (f : Nat → α) : RB α :=
  { cap := 2 ^ e, mask := 2 ^ e - 1, buf := f, wpos := 0, rpos := 0 }

/-- State reached after filling a fresh capacity-`2^e` buffer and then
overwriting `j` times: virtual write counter `2^e + j` (stored wrapped),
read counter `j`, and the live window holds `L[j .. 2^e + j)` where `L` is
the full sequence of pushed values. -/
def ovSt {α : Type} [Inhabited α] (e : Nat) (L : List α) (j : Nat)
    (s : RB α) : Prop :=
  s.cap = 2 ^ e ∧ s.mask = 2 ^ e - 1 ∧
  s.wpos = (2 ^ e + j) % usizeMod ∧ s.rpos = j ∧
  ∀ i, j ≤ i → i < 2 ^ e + j → s.buf (i % 2 ^ e) = L.getD i default

theorem fill_ovst {α : Type} [Inhabited α] {e : Nat} (he : e ≤ 63)
    (s0 : RB α) (hcap : s0.cap = 2 ^ e) (hmask : s0.mask = 2 ^ e - 1)
    (hw : s0.wpos = 0) (hr : s0.rpos = 0)
    (xs ys : List α) (hxs : xs.length = 2 ^ e) :
    (try_push_bulk s0 xs).2 = 2 ^ e ∧ ovSt e (xs ++ ys) 0 (try_push_bulk s0 xs).1 := by
  have hM := pow_lt_usize he
  have hsub : wsub s0.wpos s0.rpos = 0 := by
    rw [hw, hr]
    unfold wsub
    simp
  have hcount : min (s0.cap - wsub s0.wpos s0.rpos) xs.length = 2 ^ e := by
    rw [hsub, hcap, hxs]
    simp
  constructor
  · show min (s0.cap - wsub s0.wpos s0.rpos) xs.length = 2 ^ e
    exact hcount
  · refine ⟨hcap, hmask, ?_, ?_, ?_⟩
    · show (s0.wpos + min (s0.cap - wsub s0.wpos s0.rpos) xs.length) % usizeMod
        = (2 ^ e + 0) % usizeMod
      rw [hcount, hw]
      simp
    · show s0.rpos = 0
      exact hr
    · intro i hi0 hi
      show writeLoop s0 s0.wpos (xs.take (min (s0.cap - wsub s0.wpos s0.rpos) xs.length)) (i % 2 ^ e)
        = (xs ++ ys).getD i default
      rw [hcount, List.take_of_length_le (by omega)]
      have hkey : ((s0.wpos + i) % usizeMod) &&& s0.mask = i % 2 ^ e := by
        rw [hw, hmask, Nat.zero_add, Nat.mod_eq_of_lt (by omega),
          Nat.and_pow_two_sub_one_eq_mod]
      rw [← hkey]
      rw [writeLoop_hit xs s0 s0.wpos i (by omega) ?_]
      · rw [getD_append_left (by omega) default]
      · intro i' hlo hhi
        rw [hw, Nat.zero_add, Nat.zero_add, hmask,
          Nat.mod_eq_of_lt (show i' < usizeMod by omega),
          Nat.mod_eq_of_lt (show i < usizeMod by omega),
          Nat.and_pow_two_sub_one_eq_mod, Nat.and_pow_two_sub_one_eq_mod]
        exact (mod_ne_mod_of_sub_lt hlo (by omega)).symm

theorem ovSt_run {α : Type} [Inhabited α] {e : Nat} (he : e ≤ 63) (L : List α) :
    ∀ (zs : List α) (j : Nat) (s : RB α), ovSt e L j s →
      (∀ m, m < zs.length → zs.getD m default = L.getD (2 ^ e + j + m) default) →
      2 ^ e + j + zs.length ≤ usizeMod →
      ovSt e L (j + zs.length) (zs.foldl push_overwrite s)
  | [], j, s, h, _, _ => by simpa using h
  | z :: rest, j, s, h, hz, hwrap => by
    obtain ⟨hcap, hmask, hw, hr, hbuf⟩ := h
    have hM := pow_lt_usize he
    have hp : 0 < 2 ^ e := Nat.pos_pow_of_pos e (by norm_num)
    have hM63 : (2 : Nat) ^ e ≤ 2 ^ 63 := Nat.pow_le_pow_right (by norm_num) he
    have hlen : (z :: rest).length = rest.length + 1 := rfl
    have hwrap' : 2 ^ e + j + (rest.length + 1) ≤ usizeMod := by
      rw [← hlen]; exact hwrap
    have hjM : j < usizeMod := by omega
    have hjM2 : j + 1 < usizeMod := by omega
    have hstep : ovSt e L (j + 1) (push_overwrite s z) := by
      unfold push_overwrite
      have hw1 : ((s.wpos + 1) % usizeMod) = (2 ^ e + j + 1) % usizeMod := by
        rw [hw, Nat.mod_add_mod]
      have hcond : wsub ((s.wpos + 1) % usizeMod) s.rpos = 2 ^ e + 1 := by
        rw [hw1, hr]
        have h1 : 2 ^ e + j + 1 - j = 2 ^ e + 1 := by omega
        have h2 := wsub_wrap (2 ^ e + j + 1) j
          ((Nat.le_add_left j (2 ^ e)).trans (Nat.le_succ _))
          (by rw [h1, usizeMod_eq]; omega) hjM
        rw [h1] at h2
        exact h2
      rw [if_pos (by rw [hcond, hcap]; omega)]
      refine ⟨hcap, hmask, ?_, ?_, ?_⟩
      · show (s.wpos + 1) % usizeMod = (2 ^ e + (j + 1)) % usizeMod
        rw [hw1]
        rfl
      · show wsub ((s.wpos + 1) % usizeMod) s.cap = j + 1
        rw [hw1, hcap]
        have h1 : 2 ^ e + j + 1 - 2 ^ e = j + 1 := by omega
        have h2 := wsub_wrap (2 ^ e + j + 1) (2 ^ e)
          (by rw [Nat.add_assoc]; exact Nat.le_add_right _ _)
          (by rw [h1]; exact hjM2) hM
        rw [h1] at h2
        exact h2
      · intro i hlo hhi
        show bufWrite s s.wpos z (i % 2 ^ e) = L.getD i default
        unfold bufWrite
        rw [hw, hmask, Nat.mod_mod_of_dvd _ (dvd_refl usizeMod),
          mask_mod (by omega)]
        by_cases hie : i = 2 ^ e + j
        · subst hie
          rw [if_pos rfl]
          have := hz 0 (by simp)
          simpa using this
        · rw [if_neg (mod_ne_mod_of_sub_lt (show i < 2 ^ e + j by omega)
            (by omega))]
          exact hbuf i (by omega) (by omega)
    have hrest := ovSt_run he L rest (j + 1) (push_overwrite s z) hstep ?_ ?_
    · show ovSt e L (j + (z :: rest).length) ((z :: rest).foldl push_overwrite s)
      rw [List.foldl_cons]
      have harith : j + (z :: rest).length = j + 1 + rest.length := by
        simp [List.length_cons]
        omega
      rw [harith]
      exact hrest
    · intro m hm
      have := hz (m + 1) (by simpa using Nat.succ_lt_succ hm)
      have harith : 2 ^ e + j + (m + 1) = 2 ^ e + (j + 1) + m := by omega
      rw [harith] at this
      simpa using this
    · simp at hwrap ⊢
      omega

theorem popN_window {α : Type} [Inhabited α] {e : Nat} (he : e ≤ 63)
    (L : List α) (k : Nat) (hM : 2 ^ e + k < usizeMod) :
    ∀ (n j : Nat) (s : RB α),
      s.cap = 2 ^ e → s.mask = 2 ^ e - 1 → s.wpos = 2 ^ e + k → s.rpos = j →
      (∀ i, j ≤ i → i < 2 ^ e + k → s.buf (i % 2 ^ e) = L.getD i default) →
      j + n ≤ 2 ^ e + k →
      (popN s n).2 = (List.range n).map (fun m => L.getD (j + m) default)
  | 0, j, s, _, _, _, _, _, _ => by simp [popN]
  | n + 1, j, s, hcap, hmask, hw, hr, hbuf, hn => by
    have hpop : try_pop1 s
        = ({ s with rpos := (j + 1) % usizeMod }, some (s.buf (j &&& s.mask))) := by
      unfold try_pop1
      rw [hr, hw]
      rw [if_neg (by omega)]
    have hval : s.buf (j &&& s.mask) = L.getD j default := by
      rw [hmask, Nat.and_pow_two_sub_one_eq_mod]
      exact hbuf j (le_refl j) (by omega)
    have hr1 : (j + 1) % usizeMod = j + 1 := Nat.mod_eq_of_lt (by omega)
    have hrest := popN_window he L k hM n (j + 1)
      ({ s with rpos := (j + 1) % usizeMod }) hcap hmask hw (by simpa using hr1)
      (fun i hi1 hi2 => hbuf i (by omega) hi2) (by omega)
    show (popN s (n + 1)).2 = _
    unfold popN
    rw [hpop]
    simp only []
    rw [List.range_succ_eq_map, List.map_cons, List.map_map]
    simp only [Nat.add_zero]
    refine congrArg₂ (· :: ·) hval ?_
    rw [hrest]
    apply List.map_congr_left
    intro a ha
    simp only [Function.comp]
    congr 1
    omega

theorem drop_eq_range_map {α : Type} [Inhabited α] (L : List α) (k : Nat)
    (hk : k ≤ L.length) :
    L.drop k = (List.range (L.length - k)).map (fun m => L.getD (k + m) default) := by
  apply List.ext_getElem
  · simp
  · intro i h1 h2
    have hik : k + i < L.length := by
      simp at h1
      omega
    rw [List.getElem_drop, List.getElem_map, List.getElem_range,
      List.getD_eq_getElem?_getD, List.getElem?_eq_getElem hik]
    rfl

/-- Scalar `try_pop` reports empty exactly when the raw comparison
`read_pos >= write_pos` holds (ring_buffer.hpp:119-121). -/
theorem try_pop1_none_of_le {α : Type} (s : RB α) (h : s.wpos ≤ s.rpos) :
    (try_pop1 s).2 = none := by
  unfold try_pop1
  rw [if_pos h]

theorem rbSize_counters {α : Type} (s : RB α) {w r : Nat}
    (hw : s.wpos = w) (hr : s.rpos = r) : rbSize s = wsub w r := by
  unfold rbSize
  rw [hw, hr]

/-- C6 (amended): fill a fresh capacity-`C` buffer (`C = 2^e`) with `C`
values, then `push_overwrite` `k ≤ C` more values.  All `C` initial pushes
are accepted, the buffer still holds exactly `C` values, each overwrite
advanced `read_pos` by exactly one, and — provided the total number of
writes `C + k` stays below `2^64`, so that the 64-bit write counter has not
wrapped (always true in practice) — successive `try_pop` calls return
exactly the last `C` pushed values in order. -/
theorem ring_buffer_overwrite (e : Nat) (he : e ≤ 63) (f : Nat → ℚ)
    (xs ys : List ℚ) (hxs : xs.length = 2 ^ e) (hys : ys.length ≤ 2 ^ e)
    (hwrap : 2 ^ e + ys.length < usizeMod) :
    (try_push_bulk (freshRB e f) xs).2 = 2 ^ e ∧
      rbSize (ys.foldl push_overwrite (try_push_bulk (freshRB e f) xs).1) = 2 ^ e ∧
      (ys.foldl push_overwrite (try_push_bulk (freshRB e f) xs).1).rpos = ys.length ∧
      (popN (ys.foldl push_overwrite (try_push_bulk (freshRB e f) xs).1) (2 ^ e)).2
        = (xs ++ ys).drop ys.length := by
  have hM := pow_lt_usize he
  have hp : 0 < 2 ^ e := Nat.pos_pow_of_pos e (by norm_num)
  obtain ⟨hacc, hov0⟩ := fill_ovst he (freshRB e f) rfl rfl rfl rfl xs ys hxs
  have hz : ∀ m, m < ys.length →
      ys.getD m default = (xs ++ ys).getD (2 ^ e + 0 + m) default := by
    intro m hm
    have hidx : 2 ^ e + 0 + m = xs.length + m := by
      rw [hxs, Nat.add_zero]
    rw [hidx, getD_append_right (Nat.le_add_right _ _) default,
      Nat.add_sub_cancel_left]
  have hrun := ovSt_run he (xs ++ ys) ys 0 _ hov0 hz
    (by simpa using hwrap.le)
  rw [Nat.zero_add] at hrun
  obtain ⟨hcap2, hmask2, hw2, hr2, hbuf2⟩ := hrun
  have hwM : (2 ^ e + ys.length) % usizeMod = 2 ^ e + ys.length :=
    Nat.mod_eq_of_lt hwrap
  refine ⟨hacc, ?_, hr2, ?_⟩
  · unfold rbSize
    rw [hw2, hr2]
    have h1 : 2 ^ e + ys.length - ys.length = 2 ^ e := by omega
    have h2 := wsub_wrap (2 ^ e + ys.length) ys.length
      (Nat.le_add_left _ _) (by rw [h1]; exact hM) (by omega)
    rw [h1] at h2
    exact h2
  · have hpops := popN_window he (xs ++ ys) ys.length hwrap (2 ^ e) ys.length _
      hcap2 hmask2 (by rw [hw2]; exact hwM) hr2 hbuf2
      (Nat.add_comm ys.length (2 ^ e)).le
    rw [hpops]
    have hlenL : (xs ++ ys).length = 2 ^ e + ys.length := by
      rw [List.length_append, hxs]
    have hlen2 : (xs ++ ys).length - ys.length = 2 ^ e := by
      rw [hlenL]
      omega
    rw [drop_eq_range_map (xs ++ ys) ys.length (by rw [hlenL]; exact Nat.le_add_left _ _),
      hlen2]

/-- Witness for `ring_buffer_overwrite`: capacity 2, fill with `[1, 2]`,
overwrite once with `3`; the consumer then reads `[2, 3]`. -/
theorem ring_buffer_overwrite_witness :
    1 ≤ 63 ∧ ([(1 : ℚ), 2].length = 2 ^ 1) ∧ ([(3 : ℚ)].length ≤ 2 ^ 1) ∧
      (2 ^ 1 + [(3 : ℚ)].length < usizeMod) ∧
      ((try_push_bulk (freshRB 1 (fun _ => (0 : ℚ))) [1, 2]).2 = 2 ^ 1 ∧
        rbSize ([(3 : ℚ)].foldl push_overwrite
          (try_push_bulk (freshRB 1 (fun _ => (0 : ℚ))) [1, 2]).1) = 2 ^ 1 ∧
        ([(3 : ℚ)].foldl push_overwrite
          (try_push_bulk (freshRB 1 (fun _ => (0 : ℚ))) [1, 2]).1).rpos
            = [(3 : ℚ)].length ∧
        (popN ([(3 : ℚ)].foldl push_overwrite
          (try_push_bulk (freshRB 1 (fun _ => (0 : ℚ))) [1, 2]).1) (2 ^ 1)).2
            = ([(1 : ℚ), 2] ++ [3]).drop [(3 : ℚ)].length) :=
  ⟨by norm_num, by norm_num, by norm_num, by rw [usizeMod_eq]; norm_num,
    ring_buffer_overwrite 1 (by norm_num) (fun _ => (0 : ℚ)) [1, 2] [3]
      (by norm_num) (by norm_num) (by rw [usizeMod_eq]; norm_num)⟩

/-- C6 counterexample: with capacity `C = 2^63` and `k = C` overwrites, the
64-bit write counter wraps to `0` at the last overwrite.  The buffer then
still holds `C` values (`size() = 2^63`), but the very first `try_pop`
already fails (its raw emptiness test `read_pos >= write_pos` sees
`2^63 >= 0`), so the consumer does NOT observe the last `C` pushed values —
the claim, read over all `C` and `k ≤ C`, is false on the code. -/
theorem ring_buffer_overwrite_cex :
    rbSize ((List.replicate (2 ^ 63) (1 : ℚ)).foldl push_overwrite
        (try_push_bulk (mkRB ℚ (2 ^ 63)) (List.replicate (2 ^ 63) (0 : ℚ))).1)
      = 2 ^ 63 ∧
    (try_pop1 ((List.replicate (2 ^ 63) (1 : ℚ)).foldl push_overwrite
        (try_push_bulk (mkRB ℚ (2 ^ 63)) (List.replicate (2 ^ 63) (0 : ℚ))).1)).2
      = none := by
  have hsize : (2 ^ 63 - 1 : Nat).size = 63 :=
    le_antisymm (Nat.size_le.mpr (by norm_num)) (Nat.lt_size.mpr (by norm_num))
  have hnpt : next_power_of_two (2 ^ 63) = 2 ^ 63 := by
    rw [next_power_of_two_eq_pow (by norm_num) (le_refl _), hsize]
  have hcap : (mkRB ℚ (2 ^ 63)).cap = 2 ^ 63 := hnpt
  have hmask : (mkRB ℚ (2 ^ 63)).mask = 2 ^ 63 - 1 := by
    show wsub (next_power_of_two (2 ^ 63)) 1 = 2 ^ 63 - 1
    rw [hnpt]
    exact wsub_one (by norm_num) (by rw [usizeMod_eq]; norm_num)
  obtain ⟨hacc, hov0⟩ := fill_ovst (le_refl 63) (mkRB ℚ (2 ^ 63))
    hcap hmask rfl rfl (List.replicate (2 ^ 63) (0 : ℚ))
    (List.replicate (2 ^ 63) (1 : ℚ)) (List.length_replicate _ _)
  have hz : ∀ m, m < (List.replicate (2 ^ 63) (1 : ℚ)).length →
      (List.replicate (2 ^ 63) (1 : ℚ)).getD m default
        = (List.replicate (2 ^ 63) (0 : ℚ)
            ++ List.replicate (2 ^ 63) (1 : ℚ)).getD (2 ^ 63 + 0 + m) default := by
    intro m hm
    have hidx : 2 ^ 63 + 0 + m = (List.replicate (2 ^ 63) (0 : ℚ)).length + m := by
      rw [List.length_replicate, Nat.add_zero]
    rw [hidx, getD_append_right (Nat.le_add_right _ _) default,
      Nat.add_sub_cancel_left]
  have hrun := ovSt_run (le_refl 63) _ _ 0 _ hov0 hz
    (by rw [List.length_replicate, usizeMod_eq]; norm_num)
  rw [Nat.zero_add, List.length_replicate] at hrun
  obtain ⟨hcap2, hmask2, hw2, hr2, hbuf2⟩ := hrun
  have hw0 : (2 ^ 63 + 2 ^ 63) % usizeMod = 0 := by
    rw [usizeMod_eq]
    norm_num
  rw [hw0] at hw2
  constructor
  · refine (rbSize_counters _ hw2 hr2).trans ?_
    unfold wsub
    rw [usizeMod_eq]
    norm_num
  · exact try_pop1_none_of_le _ (by rw [hw2, hr2]; exact Nat.zero_le _)

/-!
## FFTProcessor::compute input fill (fft_processor.cpp:130-182) (C7)

Sample and window values are `ℚ`; the FFTW transform execution and the
magnitude/dB loop run after the fill and do not affect the input buffer or
the returned count.
-/

/-- The zero-pad loop of `compute` (fft_processor.cpp:142-144):
`input[i] = 0.0f` for `i < offset`. -/
def fillZero (input : Nat → ℚ) (offset : Nat) : Nat → ℚ :=
  fun i => if i < offset then 0 else input i

/-- The windowed copy loop of `compute` (fft_processor.cpp:147-149):
`input[offset + i] = samples[samples.size() - copy_count + i] * window_[offset + i]`
for `i < copy_count`; positions `offset + i` are distinct, so the loop's
effect is this pointwise function. -/
def fillCopy (input : Nat → ℚ) (samples window : List ℚ)
    (offset copy_count : Nat) : Nat → ℚ :=
  fun j =>
    if offset ≤ j ∧ j < offset + copy_count then
      samples.getD (samples.length - copy_count + (j - offset)) 0 * window.getD j 0
    else input j

/-- Input fill and return value of `FFTProcessor::compute`
(fft_processor.cpp:130-182): `copy_count = min(samples.size(), n)`,
`offset = n - copy_count` (right-alignment), and the function returns
`num_bins = bin_count() = fft_size/2 + 1` unconditionally. -/
def computeFill (input0 : Nat → ℚ) (n : Nat) (window samples : List ℚ) :
    (Nat → ℚ) × Nat :=
  let copy_count := min samples.length n
  let offset := n - copy_count
  (fillCopy (fillZero input0 offset) samples window offset copy_count, n / 2 + 1)

/-- C7: for an input shorter than `fft_size`, `compute` fills the input
buffer with `offset = fft_size - len` leading zeros followed by the samples
right-aligned and multiplied by `window[offset..fft_size)`, and returns
`bin_count = fft_size/2 + 1`; for an input of length `≥ fft_size` it uses
the last `fft_size` samples windowed. -/
theorem fft_compute_fill (input0 : Nat → ℚ) (n : Nat) (window samples : List ℚ)
    (hshort : samples.length < n) :
    (∀ i, i < n - samples.length → (computeFill input0 n window samples).1 i = 0) ∧
      (∀ i, n - samples.length ≤ i → i < n →
        (computeFill input0 n window samples).1 i
          = samples.getD (i - (n - samples.length)) 0 * window.getD i 0) ∧
      (computeFill input0 n window samples).2 = n / 2 + 1 ∧
      (∀ long : List ℚ, n ≤ long.length → ∀ i, i < n →
        (computeFill input0 n window long).1 i
          = long.getD (long.length - n + i) 0 * window.getD i 0) := by
  have hcc : min samples.length n = samples.length :=
    min_eq_left (Nat.le_of_lt hshort)
  refine ⟨?_, ?_, rfl, ?_⟩
  · intro i hi
    show fillCopy (fillZero input0 _) samples window _ _ i = 0
    rw [hcc]
    unfold fillCopy fillZero
    rw [if_neg (by omega), if_pos hi]
  · intro i h1 h2
    show fillCopy (fillZero input0 _) samples window _ _ i
      = samples.getD (i - (n - samples.length)) 0 * window.getD i 0
    rw [hcc]
    unfold fillCopy
    rw [if_pos ⟨h1, by omega⟩]
    rw [show samples.length - samples.length + (i - (n - samples.length))
      = i - (n - samples.length) from by omega]
  · intro long hlong i hi
    have hcc' : min long.length n = n := min_eq_right hlong
    show fillCopy (fillZero input0 _) long window _ _ i
      = long.getD (long.length - n + i) 0 * window.getD i 0
    rw [hcc']
    unfold fillCopy
    rw [if_pos ⟨by omega, by omega⟩]
    rw [show long.length - n + (i - (n - n)) = long.length - n + i from by omega]

/-- Witness for `fft_compute_fill`: a 2-sample input into an 8-point
transform. -/
theorem fft_compute_fill_witness :
    ([(5 : ℚ), 7].length < 8) ∧
      ((∀ i, i < 8 - [(5 : ℚ), 7].length →
        (computeFill (fun _ => 3) 8 [1, 1, 1, 1, 1, 1, 1, 1] [5, 7]).1 i = 0) ∧
      (∀ i, 8 - [(5 : ℚ), 7].length ≤ i → i < 8 →
        (computeFill (fun _ => 3) 8 [1, 1, 1, 1, 1, 1, 1, 1] [5, 7]).1 i
          = [(5 : ℚ), 7].getD (i - (8 - [(5 : ℚ), 7].length)) 0
            * [(1 : ℚ), 1, 1, 1, 1, 1, 1, 1].getD i 0) ∧
      (computeFill (fun _ => 3) 8 [1, 1, 1, 1, 1, 1, 1, 1] [(5 : ℚ), 7]).2 = 8 / 2 + 1 ∧
      (∀ long : List ℚ, 8 ≤ long.length → ∀ i, i < 8 →
        (computeFill (fun _ => 3) 8 [1, 1, 1, 1, 1, 1, 1, 1] long).1 i
          = long.getD (long.length - 8 + i) 0
            * [(1 : ℚ), 1, 1, 1, 1, 1, 1, 1].getD i 0)) :=
  ⟨by norm_num, fft_compute_fill (fun _ => 3) 8 [1, 1, 1, 1, 1, 1, 1, 1] [5, 7]
    (by norm_num)⟩

/-!
## compute_log_bands (fft_processor.cpp:200-235) (C8)

The float boundary frequency `10^(log_min + log_step * i)` and its cast
`size_t(freq * fft_size / sample_rate)` are abstracted as an arbitrary
function `g : Nat → Nat` of the boundary index; the clamp and the band
adjustment are the code's.  The invariant below holds for every `g`, hence
for whatever values the float computation takes.
-/

/-- The `freq_to_bin` lambda of `compute_log_bands`
(fft_processor.cpp:212-216): `std::clamp(bin, 0, bin_count - 1)`; the lower
clamp is trivial on an unsigned value, leaving `min bin (bin_count - 1)`. -/
def freq_to_bin_clamped (bin_count : Nat) (g : Nat → Nat) (i : Nat) : Nat :=
  min (g i) (bin_count - 1)

/-- Body of the band loop of `compute_log_bands` (fft_processor.cpp:218-232):
clamped boundary bins, then `if (bin_hi <= bin_lo) bin_hi = bin_lo + 1`,
then `bin_hi = min(bin_hi, bin_count)`. -/
def logBand (bin_count : Nat) (g : Nat → Nat) (i : Nat) : Nat × Nat :=
  let bin_lo := freq_to_bin_clamped bin_count g i
  let bin_hi := freq_to_bin_clamped bin_count g (i + 1)
  let bin_hi2 := if bin_hi ≤ bin_lo then bin_lo + 1 else bin_hi
  (bin_lo, min bin_hi2 bin_count)

/-- `compute_log_bands` (fft_processor.cpp:200-235): one band per
`i < num_bars`. -/
def compute_log_bands (bin_count num_bars : Nat) (g : Nat → Nat) :
    List (Nat × Nat) :=
  (List.range num_bars).map (logBand bin_count g)

/-- C8: for `bin_count ≥ 1`, every pair returned by `compute_log_bands`
satisfies `bin_lo < bin_hi ≤ bin_count`, for every band count and every
outcome `g` of the floating-point frequency-to-bin computation (hence for
all frequency ranges, sample rates and FFT sizes). -/
theorem log_bands_cover (bin_count num_bars : Nat) (g : Nat → Nat)
    (hbc : 1 ≤ bin_count) :
    ∀ p ∈ compute_log_bands bin_count num_bars g, p.1 < p.2 ∧ p.2 ≤ bin_count := by
  intro p hp
  rw [compute_log_bands, List.mem_map] at hp
  obtain ⟨i, _, rfl⟩ := hp
  simp only [logBand, freq_to_bin_clamped]
  have hlo : min (g i) (bin_count - 1) ≤ bin_count - 1 := min_le_right _ _
  have hhi : min (g (i + 1)) (bin_count - 1) ≤ bin_count - 1 := min_le_right _ _
  constructor
  · split_ifs with hcase <;> omega
  · exact min_le_right _ _

/-- Witness for `log_bands_cover` at the spec's test point: 32 bands over a
2048-point FFT (`bin_count = 1025`). -/
theorem log_bands_cover_witness :
    1 ≤ 1025 ∧ ∀ p ∈ compute_log_bands 1025 32 (fun i => i * i),
      p.1 < p.2 ∧ p.2 ≤ 1025 :=
  ⟨by norm_num, log_bands_cover 1025 32 (fun i => i * i) (by norm_num)⟩

/-!
## SpectrumAnalyzer (spectrum_analyzer.cpp) (C2, C9, C10)

`update()` is modelled as a pure transformer of the analyzer state and the
consumer view of the ring buffer.  The two float library calls it makes —
`std::sqrt` for the RMS and the FFT magnitude pipeline written into
`magnitude_buffer_` by `fft_->compute` — are collaborator computations and
enter as the oracle parameters `sqrtQ` and `fftMags`; no property below
depends on their values.  The wall-clock `timestamp` is outside the model.
-/

/-- The fields of `AnalyzerConfig` that `update()` reads
(spectrum_analyzer.hpp:14-21). -/
structure AnalyzerConfig where
  num_bands : Nat
  smoothing_factor : ℚ
  peak_decay_rate : ℚ

/-- Analyzer state owned by the visualization thread: configuration, the
FFT size, the band mapping `band_bins_`, and the smoothing/peak vectors. -/
structure AnalyzerState where
  config : AnalyzerConfig
  fft_size : Nat
  band_bins : List (Nat × Nat)
  smoothed_magnitudes : List ℚ
  peak_values : List ℚ

/-- `SpectrumData` (spectrum_analyzer.hpp:24-30): `rms_level` and
`peak_level` default to `0.0f`. -/
structure SpectrumData where
  magnitudes : List ℚ
  peaks : List ℚ
  rms_level : ℚ
  peak_level : ℚ
deriving DecidableEq

/-- `SpectrumAnalyzer::compute_band_magnitude` (spectrum_analyzer.cpp:74-88):
`0` for an empty range, else the mean of `magnitude_buffer_[bin_start..bin_end)`. -/
def compute_band_magnitude (band_bins : List (Nat × Nat))
    (magnitude_buffer : List ℚ) (band_index : Nat) : ℚ :=
  let p := band_bins.getD band_index (0, 0)
  if p.2 ≤ p.1 then 0
  else ((List.range (p.2 - p.1)).map
      (fun j => magnitude_buffer.getD (p.1 + j) 0)).sum / ((p.2 - p.1 : Nat) : ℚ)

/-- The per-band body of the update loop (spectrum_analyzer.cpp:131-148):
exponential smoothing `smoothed := (1 - s)·raw + s·smoothed`, then peak
hold with decay `if smoothed > peak then peak := smoothed else peak *= d`. -/
def bandStep (s d raw sm pk : ℚ) : ℚ × ℚ :=
  let sm2 := (1 - s) * raw + s * sm
  (sm2, if pk < sm2 then sm2 else pk * d)

/-- The band loop of `update()` over all `num_bands` bands. -/
def updateBands (num_bands : Nat) (s d : ℚ) (band_bins : List (Nat × Nat))
    (mags sm pk : List ℚ) : List (ℚ × ℚ) :=
  (List.range num_bands).map (fun i =>
    bandStep s d (compute_band_magnitude band_bins mags i)
      (sm.getD i 0) (pk.getD i 0))

/-- The external float computations of `update()`. -/
structure FloatOracle where
  sqrtQ : ℚ → ℚ
  fftMags : List ℚ → List ℚ

/-- The discard-excess step of `update()` (spectrum_analyzer.cpp:109-111):
drop the oldest samples so that at most `fft_size` remain. -/
def updateDiscarded (a : AnalyzerState) (b : RB ℚ) : RB ℚ :=
  if a.fft_size < rbSize b then (discardOp b (rbSize b - a.fft_size)).1 else b

/-- The samples `update()` works on: the `read_count` values `peek` copies
into `sample_buffer_` (spectrum_analyzer.cpp:113). -/
def updateSamples (a : AnalyzerState) (b : RB ℚ) : List ℚ :=
  outVals (peekOp (updateDiscarded a b) (fun _ => 0) a.fft_size).1
    (peekOp (updateDiscarded a b) (fun _ => 0) a.fft_size).2

/-- `SpectrumAnalyzer::update` (spectrum_analyzer.cpp:90-154), returning the
new analyzer state, the new buffer state, and the produced snapshot. -/
def update (o : FloatOracle) (a : AnalyzerState) (b : RB ℚ) :
    AnalyzerState × RB ℚ × SpectrumData :=
  let available := rbSize b
  let needed := a.fft_size
  if available < needed / 4 then
    (a, b, ⟨a.smoothed_magnitudes, a.peak_values, 0, 0⟩)
  else
    let b1 := updateDiscarded a b
    let read_count := (peekOp b1 (fun _ => 0) a.fft_size).2
    let samples := updateSamples a b
    let sum_squares := (samples.map (fun v => v * v)).sum
    let peak := samples.foldl (fun p v => max p |v|) 0
    let rms_level := o.sqrtQ (sum_squares / (read_count : ℚ))
    let mags := o.fftMags samples
    let news := updateBands a.config.num_bands a.config.smoothing_factor
      a.config.peak_decay_rate a.band_bins mags
      a.smoothed_magnitudes a.peak_values
    let b2 := (discardOp b1 read_count).1
    ({ a with
        smoothed_magnitudes := news.map Prod.fst,
        peak_values := news.map Prod.snd },
      b2,
      ⟨news.map Prod.fst, news.map Prod.snd, rms_level, peak⟩)

/-- The analyzer state right after construction
(spectrum_analyzer.cpp:9-21): smoothing and peak vectors of length
`num_bands`, all zero; `band_bins` as computed by
`recompute_band_mapping`. -/
def initAnalyzer (cfg : AnalyzerConfig) (fft_size : Nat)
    (band_bins : List (Nat × Nat)) : AnalyzerState :=
  { config := cfg, fft_size := fft_size, band_bins := band_bins,
    smoothed_magnitudes := List.replicate cfg.num_bands 0,
    peak_values := List.replicate cfg.num_bands 0 }

/-- C2: whenever the ring buffer holds fewer than `fft_size/4` samples,
`update()` returns a snapshot whose `magnitudes` and `peaks` are the current
`smoothed_magnitudes` and `peak_values` and whose `rms_level` and
`peak_level` are 0; in particular immediately after construction (all state
zero, empty buffer; `fft_size ≥ 4` so that the starvation threshold
`fft_size/4` is positive) it returns all-zero magnitudes and peaks. -/
theorem update_starvation_hold (o : FloatOracle) (a : AnalyzerState) (b : RB ℚ)
    (h : rbSize b < a.fft_size / 4) (cfg : AnalyzerConfig) (fs : Nat)
    (bb : List (Nat × Nat)) (mc : Nat) (hfs : 4 ≤ fs) :
    (update o a b).2.2 = ⟨a.smoothed_magnitudes, a.peak_values, 0, 0⟩ ∧
      (update o (initAnalyzer cfg fs bb) (mkRB ℚ mc)).2.2.magnitudes
        = List.replicate cfg.num_bands 0 ∧
      (update o (initAnalyzer cfg fs bb) (mkRB ℚ mc)).2.2.peaks
        = List.replicate cfg.num_bands 0 := by
  have hmain : ∀ (a' : AnalyzerState) (b' : RB ℚ),
      rbSize b' < a'.fft_size / 4 →
      (update o a' b').2.2 = ⟨a'.smoothed_magnitudes, a'.peak_values, 0, 0⟩ := by
    intro a' b' h'
    unfold update
    rw [if_pos h']
  have hempty : rbSize (mkRB ℚ mc) < (initAnalyzer cfg fs bb).fft_size / 4 := by
    have h0 : rbSize (mkRB ℚ mc) = 0 := by
      show wsub 0 0 = 0
      unfold wsub
      simp
    rw [h0]
    show 0 < fs / 4
    exact Nat.div_pos hfs (by norm_num)
  refine ⟨hmain a b h, ?_, ?_⟩
  · rw [hmain _ _ hempty]
    rfl
  · rw [hmain _ _ hempty]
    rfl

/-- Witness for `update_starvation_hold`: a freshly constructed 4-band
analyzer over a 2048-point FFT and an empty capacity-8 buffer. -/
theorem update_starvation_hold_witness :
    rbSize (mkRB ℚ 8) < (initAnalyzer ⟨4, 7/10, 19/20⟩ 2048 [(0, 1)]).fft_size / 4 ∧
      4 ≤ 2048 ∧
      ((update ⟨id, id⟩ (initAnalyzer ⟨4, 7/10, 19/20⟩ 2048 [(0, 1)]) (mkRB ℚ 8)).2.2
          = ⟨(initAnalyzer ⟨4, 7/10, 19/20⟩ 2048 [(0, 1)]).smoothed_magnitudes,
             (initAnalyzer ⟨4, 7/10, 19/20⟩ 2048 [(0, 1)]).peak_values, 0, 0⟩ ∧
        (update ⟨id, id⟩ (initAnalyzer ⟨4, 7/10, 19/20⟩ 2048 [(0, 1)])
            (mkRB ℚ 8)).2.2.magnitudes = List.replicate 4 0 ∧
        (update ⟨id, id⟩ (initAnalyzer ⟨4, 7/10, 19/20⟩ 2048 [(0, 1)])
            (mkRB ℚ 8)).2.2.peaks = List.replicate 4 0) :=
  ⟨by decide, by norm_num,
    update_starvation_hold ⟨id, id⟩ (initAnalyzer ⟨4, 7/10, 19/20⟩ 2048 [(0, 1)])
      (mkRB ℚ 8) (by decide) ⟨4, 7/10, 19/20⟩ 2048 [(0, 1)] 8 (by norm_num)⟩

/-- C10: when `update()` takes the starvation branch it performs no discard
or pop and leaves the entire analyzer state (smoothed magnitudes, peak
values, band mapping, configuration) and the ring buffer (counters and
contents) exactly as they were. -/
theorem update_starvation_no_effect (o : FloatOracle) (a : AnalyzerState)
    (b : RB ℚ) (h : rbSize b < a.fft_size / 4) :
    (update o a b).1 = a ∧ (update o a b).2.1 = b := by
  unfold update
  rw [if_pos h]
  exact ⟨rfl, rfl⟩

/-- Witness for `update_starvation_no_effect`: a 2-band analyzer with a
half-full window threshold and a buffer holding a single sample. -/
theorem update_starvation_no_effect_witness :
    rbSize (try_push1 (mkRB ℚ 16) 1).1 < (initAnalyzer ⟨2, 1/2, 1/2⟩ 16 [(0, 2)]).fft_size / 4 ∧
      ((update ⟨id, id⟩ (initAnalyzer ⟨2, 1/2, 1/2⟩ 16 [(0, 2)])
          (try_push1 (mkRB ℚ 16) 1).1).1 = initAnalyzer ⟨2, 1/2, 1/2⟩ 16 [(0, 2)] ∧
        (update ⟨id, id⟩ (initAnalyzer ⟨2, 1/2, 1/2⟩ 16 [(0, 2)])
          (try_push1 (mkRB ℚ 16) 1).1).2.1 = (try_push1 (mkRB ℚ 16) 1).1) :=
  ⟨by decide,
    update_starvation_no_effect ⟨id, id⟩ (initAnalyzer ⟨2, 1/2, 1/2⟩ 16 [(0, 2)])
      (try_push1 (mkRB ℚ 16) 1).1 (by decide)⟩

theorem getD_range_map {β : Type} (f : Nat → β) {n i : Nat} (h : i < n) (d : β) :
    ((List.range n).map f).getD i d = f i := by
  rw [List.getD_eq_getElem?_getD, List.getElem?_eq_getElem (by simpa using h)]
  simp

/-- `k` frames of the per-band rules with the raw band magnitude held at
zero. -/
def decayIter (s d : ℚ) : Nat → ℚ × ℚ → ℚ × ℚ
  | 0, st => st
  | k + 1, st => decayIter s d k (bandStep s d 0 st.1 st.2)

theorem decayIter_peak (s d : ℚ) (hs0 : 0 ≤ s) (hsd : s ≤ d) (hd1 : d ≤ 1) :
    ∀ (k : Nat) (sm pk : ℚ), 0 ≤ sm → sm ≤ pk →
      decayIter s d k (sm, pk) = (sm * s ^ k, pk * d ^ k)
  | 0, sm, pk, _, _ => by simp [decayIter]
  | k + 1, sm, pk, hsm0, hsmpk => by
    have hstep : bandStep s d 0 sm pk = (s * sm, pk * d) := by
      simp only [bandStep]
      have hsm2 : (1 - s) * 0 + s * sm = s * sm := by ring
      have hle : s * sm ≤ pk := by
        calc s * sm ≤ 1 * sm := mul_le_mul_of_nonneg_right (le_trans hsd hd1) hsm0
          _ = sm := one_mul sm
          _ ≤ pk := hsmpk
      rw [hsm2, if_neg (not_lt.mpr hle)]
    show decayIter s d k (bandStep s d 0 sm pk) = _
    rw [hstep]
    rw [decayIter_peak s d hs0 hsd hd1 k (s * sm) (pk * d) (mul_nonneg hs0 hsm0)
      (by calc s * sm ≤ d * pk := mul_le_mul hsd hsmpk hsm0 (le_trans hs0 hsd)
        _ = pk * d := mul_comm d pk)]
    rw [Prod.mk.injEq]
    constructor <;> ring

/-- C9 counterexample: with `smoothing_factor = 3/4 > peak_decay_rate = 1/2`
(both within their documented `[0, 1]` ranges), drive one band from the zero
state with one frame of raw magnitude 1, then hold the raw magnitude at 0.
The peak goes `1/4 → 1/8 → 9/64`: on the second zero frame the still-decaying
smoothed value overtakes the faster-decaying peak and the peak hold latches
UP to it.  The peak neither strictly decreases each frame nor equals the
previous peak times `peak_decay_rate`, refuting the claim's consequence. -/
theorem peak_decay_cex :
    bandStep (3/4) (1/2) 1 0 0 = (1/4, 1/4) ∧
      bandStep (3/4) (1/2) 0 (1/4) (1/4) = (3/16, 1/8) ∧
      bandStep (3/4) (1/2) 0 (3/16) (1/8) = (9/64, 9/64) ∧
      ¬ ((9 : ℚ)/64 < 1/8) ∧ (9 : ℚ)/64 ≠ 1/8 * (1/2) := by
  refine ⟨?_, ?_, ?_, by norm_num, by norm_num⟩
  all_goals
    simp only [bandStep, Prod.mk.injEq]
    constructor
    · norm_num
    · split_ifs with hc <;> norm_num at hc ⊢

/-- C9 (amended): in each non-starved `update()`, band `i` is updated by
exactly the two rules — `smoothed[i] := (1 - s)·raw + s·smoothed[i]`, then
`peak[i] := smoothed[i]` if `smoothed[i] > peak[i]` else
`peak[i] := peak[i]·peak_decay_rate`.  Consequently, when the raw band
magnitude is zero and stays zero AND `smoothing_factor ≤ peak_decay_rate ≤ 1`
with `0 ≤ smoothed ≤ peak` (in particular for `smoothing_factor = 0`), the
peak is multiplied by exactly `peak_decay_rate` each frame — after `k`
frames it equals `peak·d^k`, strictly decreasing while the peak is positive
and `peak_decay_rate < 1`, converging to (but never exactly reaching) zero.
When `smoothing_factor > peak_decay_rate` the peak can instead latch back up
to the smoothed value (see the counterexample). -/
theorem band_rules_and_peak_decay (o : FloatOracle) (a : AnalyzerState)
    (b : RB ℚ) (hne : ¬ rbSize b < a.fft_size / 4) (i : Nat)
    (hi : i < a.config.num_bands) (s d sm pk : ℚ) (k : Nat)
    (hs0 : 0 ≤ s) (hsd : s ≤ d) (hd1 : d ≤ 1) (hsm0 : 0 ≤ sm)
    (hsmpk : sm ≤ pk) :
    ((update o a b).1.smoothed_magnitudes.getD i 0
        = (1 - a.config.smoothing_factor)
            * compute_band_magnitude a.band_bins (o.fftMags (updateSamples a b)) i
          + a.config.smoothing_factor * a.smoothed_magnitudes.getD i 0 ∧
      (update o a b).1.peak_values.getD i 0
        = (if a.peak_values.getD i 0 < (update o a b).1.smoothed_magnitudes.getD i 0
            then (update o a b).1.smoothed_magnitudes.getD i 0
            else a.peak_values.getD i 0 * a.config.peak_decay_rate)) ∧
      ((decayIter s d k (sm, pk)).2 = pk * d ^ k ∧
        (0 < d → d < 1 → 0 < pk →
          (decayIter s d (k + 1) (sm, pk)).2 < (decayIter s d k (sm, pk)).2)) := by
  have hsm_eq : (update o a b).1.smoothed_magnitudes.getD i 0
      = (bandStep a.config.smoothing_factor a.config.peak_decay_rate
          (compute_band_magnitude a.band_bins (o.fftMags (updateSamples a b)) i)
          (a.smoothed_magnitudes.getD i 0) (a.peak_values.getD i 0)).1 := by
    unfold update updateBands
    rw [if_neg hne]
    show (((List.range a.config.num_bands).map _).map Prod.fst).getD i 0 = _
    rw [List.map_map]
    exact getD_range_map _ hi 0
  have hpk_eq : (update o a b).1.peak_values.getD i 0
      = (bandStep a.config.smoothing_factor a.config.peak_decay_rate
          (compute_band_magnitude a.band_bins (o.fftMags (updateSamples a b)) i)
          (a.smoothed_magnitudes.getD i 0) (a.peak_values.getD i 0)).2 := by
    unfold update updateBands
    rw [if_neg hne]
    show (((List.range a.config.num_bands).map _).map Prod.snd).getD i 0 = _
    rw [List.map_map]
    exact getD_range_map _ hi 0
  refine ⟨⟨?_, ?_⟩, ?_, ?_⟩
  · rw [hsm_eq]
    rfl
  · rw [hpk_eq, hsm_eq]
    rfl
  · rw [decayIter_peak s d hs0 hsd hd1 k sm pk hsm0 hsmpk]
  · intro hd0 hdlt hpk0
    rw [decayIter_peak s d hs0 hsd hd1 k sm pk hsm0 hsmpk,
      decayIter_peak s d hs0 hsd hd1 (k + 1) sm pk hsm0 hsmpk]
    show pk * d ^ (k + 1) < pk * d ^ k
    have hpow : d ^ (k + 1) < d ^ k := by
      rw [pow_succ]
      exact mul_lt_of_lt_one_right (pow_pos hd0 k) hdlt
    exact mul_lt_mul_of_pos_left hpow hpk0

/-- Witness for `band_rules_and_peak_decay`: a one-band analyzer over a
4-point window with one pushed sample (exactly the starvation threshold, so
the non-starved branch runs), and decay parameters `s = 0`, `d = 1/2` from
peak 1. -/
theorem band_rules_and_peak_decay_witness :
    ¬ rbSize (try_push1 (freshRB 0 (fun _ => (0 : ℚ))) 5).1
        < (initAnalyzer ⟨1, 0, 0⟩ 4 [(0, 1)]).fft_size / 4 ∧
      (0 : Nat) < 1 ∧ (0 : ℚ) ≤ 0 ∧ (0 : ℚ) ≤ 1/2 ∧ (1 : ℚ)/2 ≤ 1 ∧
      (0 : ℚ) ≤ 0 ∧ (0 : ℚ) ≤ 1 ∧
      (((update ⟨id, id⟩ (initAnalyzer ⟨1, 0, 0⟩ 4 [(0, 1)])
            (try_push1 (freshRB 0 (fun _ => (0 : ℚ))) 5).1).1.smoothed_magnitudes.getD 0 0
          = (1 - (initAnalyzer ⟨1, 0, 0⟩ 4 [(0, 1)]).config.smoothing_factor)
              * compute_band_magnitude
                  (initAnalyzer ⟨1, 0, 0⟩ 4 [(0, 1)]).band_bins
                  (FloatOracle.fftMags ⟨id, id⟩
                    (updateSamples (initAnalyzer ⟨1, 0, 0⟩ 4 [(0, 1)])
                      (try_push1 (freshRB 0 (fun _ => (0 : ℚ))) 5).1)) 0
            + (initAnalyzer ⟨1, 0, 0⟩ 4 [(0, 1)]).config.smoothing_factor
              * (initAnalyzer ⟨1, 0, 0⟩ 4 [(0, 1)]).smoothed_magnitudes.getD 0 0 ∧
        (update ⟨id, id⟩ (initAnalyzer ⟨1, 0, 0⟩ 4 [(0, 1)])
            (try_push1 (freshRB 0 (fun _ => (0 : ℚ))) 5).1).1.peak_values.getD 0 0
          = (if (initAnalyzer ⟨1, 0, 0⟩ 4 [(0, 1)]).peak_values.getD 0 0
                < (update ⟨id, id⟩ (initAnalyzer ⟨1, 0, 0⟩ 4 [(0, 1)])
                    (try_push1 (freshRB 0 (fun _ => (0 : ℚ))) 5).1).1.smoothed_magnitudes.getD 0 0
              then (update ⟨id, id⟩ (initAnalyzer ⟨1, 0, 0⟩ 4 [(0, 1)])
                    (try_push1 (freshRB 0 (fun _ => (0 : ℚ))) 5).1).1.smoothed_magnitudes.getD 0 0
              else (initAnalyzer ⟨1, 0, 0⟩ 4 [(0, 1)]).peak_values.getD 0 0
                * (initAnalyzer ⟨1, 0, 0⟩ 4 [(0, 1)]).config.peak_decay_rate)) ∧
        ((decayIter 0 (1/2) 3 (0, 1)).2 = 1 * (1/2) ^ 3 ∧
          ((0 : ℚ) < 1/2 → (1 : ℚ)/2 < 1 → (0 : ℚ) < 1 →
            (decayIter 0 (1/2) (3 + 1) (0, 1)).2 < (decayIter 0 (1/2) 3 (0, 1)).2))) :=
  ⟨by decide, by norm_num, by norm_num, by norm_num, by norm_num, by norm_num,
    by norm_num,
    band_rules_and_peak_decay ⟨id, id⟩ (initAnalyzer ⟨1, 0, 0⟩ 4 [(0, 1)])
      (try_push1 (freshRB 0 (fun _ => (0 : ℚ))) 5).1 (by decide) 0 (by decide)
      0 (1/2) 0 1 3 (by norm_num) (by norm_num) (by norm_num) (by norm_num)
      (by norm_num)⟩

end Audiovis
